import Mathlib

/-!
Verification of the docmat documentation generator (docitems.py, builders.py).

Python strings are modelled as `List Char`; `str.casefold`/`str.upper` are
modelled per-character (`Char.toLower` / `Char.toUpper`), which is faithful
for the ASCII identifiers and markup this program manipulates.  `\w` and `\s`
of the `re` module are modelled by their ASCII classes.
-/

namespace Docmat

abbrev Str := List Char

/-- Coerce a Lean string literal to the `List Char` model. -/
def str (s : String) : Str := s.data

/-- Model of `str.casefold()` (and of `re.I` comparison): per-char lowering. -/
def lowerS (s : Str) : Str := s.map Char.toLower

/-- Model of `str.upper()`: per-char upper-casing. -/
def upperS (s : Str) : Str := s.map Char.toUpper

/-- ASCII model of the regex class `\w`. -/
def isWordChar (c : Char) : Bool := c.isAlphanum || c == '_'

/-- ASCII model of the regex class `\s` / `str.strip` whitespace. -/
def isSpaceChar (c : Char) : Bool :=
  c == ' ' || c == '\t' || c == '\n' || c == '\r' || c == '\x0b' || c == '\x0c'

/-- Model of `str.lstrip()`. -/
def lstripL (s : Str) : Str := s.dropWhile isSpaceChar

/-- Model of `str.rstrip()`. -/
def rstripL (s : Str) : Str := (s.reverse.dropWhile isSpaceChar).reverse

/-- Model of `str.strip()`. -/
def stripL (s : Str) : Str := lstripL (rstripL s)

/-- Model of `str.startswith(pat)`. -/
def startsW (pat s : Str) : Bool := pat.isPrefixOf s

/-- Model of `str.find(pat)`: index of the first occurrence (`none` for -1). -/
def findSub (pat : Str) : Str → Option Nat
  | [] => if pat.isEmpty then some 0 else none
  | c :: rest =>
    if pat.isPrefixOf (c :: rest) then some 0 else (findSub pat rest).map (· + 1)

/-- Model of Python's `pat in s` substring test. -/
def containsSub (pat s : Str) : Bool := (findSub pat s).isSome

/-- One left-to-right non-overlapping replacement pass (nonempty pattern).
The fuel only bounds the recursion depth; every step consumes at least one
character, so initial fuel `s.length` is never exhausted. -/
def replaceGo (pat rep : Str) : Nat → Str → Str
  | _, [] => []
  | 0, s => s
  | fuel + 1, c :: rest =>
    if pat.isPrefixOf (c :: rest) then
      rep ++ replaceGo pat rep fuel (rest.drop (pat.length - 1))
    else c :: replaceGo pat rep fuel rest

/-- Model of `str.replace(pat, rep)`, including Python's empty-pattern case. -/
def replaceAll (pat rep s : Str) : Str :=
  if pat.isEmpty then rep ++ (s.map (fun c => c :: rep)).flatten
  else replaceGo pat rep s.length s

/-- Accumulator for `wordsL`: `cur` holds the current word reversed. -/
def wordsGo (cur : Str) : Str → List Str
  | [] => if cur.isEmpty then [] else [cur.reverse]
  | c :: rest =>
    if isWordChar c then wordsGo (c :: cur) rest
    else if cur.isEmpty then wordsGo [] rest
    else cur.reverse :: wordsGo [] rest

/-- Model of `re.findall(r"\w+", s)`: maximal runs of word characters. -/
def wordsL (s : Str) : List Str := wordsGo [] s

/-- Index of the last occurrence of a character (`str.rfind`). -/
def rfindChar (c : Char) (s : Str) : Option Nat :=
  (findSub [c] s.reverse).map (fun i => s.length - 1 - i)

/-- Model of `pathlib.PurePath.stem`: the final component minus its last
suffix; a dot at position `i` yields a suffix only when `0 < i < len - 1`. -/
def pstem (nm : Str) : Str :=
  match rfindChar '.' nm with
  | some i => if 0 < i ∧ i + 1 < nm.length then nm.take i else nm
  | none => nm

/-- Model of `pathlib.PurePath.suffix`. -/
def psuffix (nm : Str) : Str :=
  match rfindChar '.' nm with
  | some i => if 0 < i ∧ i + 1 < nm.length then nm.drop i else []
  | none => []

/-- Python string `<` (lexicographic by code point). -/
def ltStr : Str → Str → Bool
  | [], [] => false
  | [], _ :: _ => true
  | _ :: _, [] => false
  | c :: a, d :: b => if c = d then ltStr a b else decide (c < d)

/-- Stable insertion preserving earlier equal keys (Python `list.sort` is
stable and ascending). -/
def insSorted (key : α → Str) (x : α) : List α → List α
  | [] => [x]
  | y :: ys => if ltStr (key x) (key y) then x :: y :: ys else y :: insSorted key x ys

/-- Model of `list.sort(key=...)`. -/
def sortByKey (key : α → Str) (l : List α) : List α :=
  l.foldl (fun acc x => insSorted key x acc) []

/-- Model of `sep.join(parts)`. -/
def joinSep (sep : Str) : List Str → Str
  | [] => []
  | [x] => x
  | x :: y :: rest => x ++ sep ++ joinSep sep (y :: rest)

/-! ### The self-reference regex of `FileItem.scan`

The pattern is `(?<!\w)(?:(\w+|\[.*?\])\s*=\s*)?NAME(\(.*\))?(?!\w)` with
`re.I`, where NAME is the item's name (a plain identifier).  The matcher
below reproduces Python's backtracking on this pattern: the optional prefix
group prefers the `\w+` branch (whose quantifiers are forced, since after
shortening `\w+` or `\s*` the following literal `=` cannot match), then the
lazy `\[.*?\]` branch with closing brackets tried left to right, then the
absent prefix; the optional `(\(.*\))?` group prefers the longest argument
capture (closing parentheses tried right to left), then absence. -/

/-- Length of the maximal run of characters satisfying `p`. -/
def runLen (p : Char → Bool) (s : Str) : Nat := (s.takeWhile p).length

/-- Given a prefix-group candidate consuming `k` chars of `t`, consume
`\s* = \s*` after it and return the total consumed length. -/
def eqTail (t : Str) (k : Nat) : Option Nat :=
  let t1 := t.drop k
  let s1 := runLen isSpaceChar t1
  match t1.drop s1 with
  | '=' :: t3 => some (k + s1 + 1 + runLen isSpaceChar t3)
  | _ => none

/-- All indices of character `c` in `s`, ascending. -/
def idxsOf (c : Char) (s : Str) : List Nat :=
  (List.range s.length).filter (fun i => s.get? i = some c)

/-- Candidate consumed lengths for the optional group
`(?:(\w+|\[.*?\])\s*=\s*)?` at the start of `t`, in backtracking
preference order (ending with 0 for the absent group). -/
def prefixCands (t : Str) : List Nat :=
  (let w := runLen isWordChar t
   if w = 0 then [] else (eqTail t w).toList) ++
  (match t with
   | '[' :: _ => ((idxsOf ']' t).filter (1 ≤ ·)).filterMap (fun j => eqTail t (j + 1))
   | _ => []) ++ [0]

/-- Case-insensitive literal match of the item name at the start of `t`. -/
def nameAt (nameLower : Str) (t : Str) : Bool :=
  (t.take nameLower.length).map Char.toLower = nameLower

/-- Candidate argument-group lengths `(\(.*\))?` at the start of `u`, in
backtracking preference order (longest capture first, then absence). -/
def g2Cands (u : Str) : List (Option Nat) :=
  (match u with
   | '(' :: _ => (((idxsOf ')' u).filter (1 ≤ ·)).reverse).map (fun j => some (j + 1))
   | _ => []) ++ [none]

/-- The trailing negative lookahead `(?!\w)`. -/
def laOK (u : Str) : Bool :=
  match u.head? with
  | none => true
  | some c => !isWordChar c

/-- Try the whole pattern at position `i` of `s`; on success return the
match length and the argument-group capture. -/
def tryMatchAt (nameLower : Str) (s : Str) (i : Nat) : Option (Nat × Option Str) :=
  let lb : Bool :=
    if i = 0 then true
    else match s.get? (i - 1) with
      | some c => !isWordChar c
      | none => true
  if lb then
    let t := s.drop i
    (prefixCands t).findSome? (fun p =>
      let t1 := t.drop p
      if nameAt nameLower t1 then
        let u := t1.drop nameLower.length
        (g2Cands u).findSome? (fun g2o =>
          match g2o with
          | some len2 =>
            if laOK (u.drop len2) then
              some (p + nameLower.length + len2, some (u.take len2))
            else none
          | none =>
            if laOK u then some (p + nameLower.length, none) else none)
      else none)
  else none

/-- Leftmost match at a position `≥ pos` (the scan step of `re.sub`). -/
def findMatchFrom (nameLower : Str) (s : Str) (pos : Nat) :
    Option (Nat × Nat × Option Str) :=
  (List.range' pos (s.length + 1 - pos)).findSome? (fun i =>
    (tryMatchAt nameLower s i).map (fun r => (i, r.1, r.2)))

/-- The replacement `make_strong`: bold the match, case-folded except the
item's canonical name restored. -/
def strongOf (nm g0 : Str) : Str :=
  str "**" ++ replaceAll (lowerS nm) nm (lowerS g0) ++ str "**"

/-- The update of `self.arguments` performed by `make_strong` on one
argument-group capture: `if match.group(2) and not self.arguments`. -/
def argStep (args g : Str) : Str :=
  if !g.isEmpty && args.isEmpty then lowerS g else args

/-- The `re.sub` loop of `FileItem.scan`, threading the `self.arguments`
state exactly as `make_strong` does.  `fuel` only bounds the recursion; it
is never exhausted since every match is nonempty (the name is nonempty). -/
def reSubAux (nm nameLower : Str) (s : Str) : Nat → Nat → Str → Str × Str
  | 0, pos, args => (s.drop pos, args)
  | fuel + 1, pos, args =>
    match findMatchFrom nameLower s pos with
    | none => (s.drop pos, args)
    | some (i, len, g2) =>
      if len = 0 then (s.drop pos, args)
      else
        let args' := match g2 with
          | some g => argStep args g
          | none => args
        let r := reSubAux nm nameLower s fuel (i + len) args'
        ((s.drop pos).take (i - pos) ++ strongOf nm ((s.drop i).take len) ++ r.1, r.2)

/-- One body line of `FileItem.scan`: emphasized output and updated
`self.arguments`. -/
def reSubLine (nm args line : Str) : Str × Str :=
  reSubAux nm (lowerS nm) line (line.length + 1) 0 args

/-! ### Items -/

/-- The three `FileItem` subclasses (script / function / class). -/
inductive MKind where
  | script
  | func
  | cls
deriving DecidableEq, Repr

/-- The `role` class attribute of each subclass. -/
def MKind.role : MKind → Str
  | .script => str "obj"
  | .func => str "func"
  | .cls => str "class"

/-- The `defn` class attribute of each subclass. -/
def MKind.defn : MKind → Str
  | .script => str "py:function"
  | .func => str "py:function"
  | .cls => str "py:class"

/-- State of a constructed `FileItem`. -/
structure Item where
  name : Str
  arguments : Str
  descr : Str
  see_also : List Str
  contents : List Str
  kind : MKind
deriving DecidableEq, Repr

/-- Accumulated state of the `for line in src` loop of `FileItem.scan`. -/
structure ScanAcc where
  body : List Str
  args : Str
  sa : List Str
deriving DecidableEq, Repr

/-- The literal marker searched by `line.find("See also")`. -/
def seeAlsoMarker : Str := str "See also"

/-- `FileItem._process_see_also`: word tokens after the marker plus one
extra character, case-folded. -/
def seeAlsoTokens (line : Str) (idx : Nat) : List Str :=
  (wordsL (line.drop (idx + 9))).map lowerS

/-- The body loop of `FileItem.scan`: lines containing "See also" are
diverted into `see_also` (overwriting), other lines are emphasized. -/
def scanBody (nm : Str) (args : Str) (sa : List Str) : List Str → ScanAcc
  | [] => ⟨[], args, sa⟩
  | line :: rest =>
    match findSub seeAlsoMarker line with
    | some idx => scanBody nm args (seeAlsoTokens line idx) rest
    | none =>
      let p := reSubLine nm args line
      let acc := scanBody nm p.2 sa rest
      ⟨p.1 :: acc.body, acc.args, acc.sa⟩

/-- `FileItem.__init__` driving `scan`: `none` models the `TypeError`
raised by `_process_h1` for private headers; an empty content sequence
yields an item with all fields at their initial values. -/
def itemOfContents (kind : MKind) (nm : Str) (contents : List Str) : Option Item :=
  match contents with
  | [] => some ⟨nm, [], [], [], [], kind⟩
  | first :: rest =>
    if containsSub (str "private") (lowerS first) then none
    else
      let d := stripL (replaceAll (upperS nm) [] first)
      let acc := scanBody nm [] [] rest
      some ⟨nm, acc.args, d, acc.sa, d :: acc.body, kind⟩

/-! ### The RST builder (the default `builder=RstBuilder` of `gen`) -/

/-- `RstBuilder.role`. -/
def rstRole (role value : Str) : Str :=
  str ":" ++ role ++ str ":`" ++ value ++ str "`"

/-- `RstBuilder.directive`; each element is one printed line
(`print("  ", line)` emits two spaces, the separator space, then the line). -/
def rstDirective (dirv arg : Str) (options contents : List Str) : List Str :=
  (if arg.isEmpty then [str ".. " ++ dirv ++ str "::"]
   else [str ".. " ++ dirv ++ str ":: " ++ arg]) ++
  options.map (fun o => str "   " ++ o) ++ [[]] ++
  contents.map (fun l => str "   " ++ l) ++ [[]]

/-- `RstBuilder.line_block`. -/
def rstLineBlock (inpt : List Str) : List Str :=
  inpt.map (fun l => if l.isEmpty then l else str "| " ++ l)

/-! ### Registries (the class-level dicts `DocItem.node` / `DocItem.leaf`)

A Python dict is modelled as an association list where insertion conses and
lookup returns the most recent binding, so a later insertion with the same
key silently shadows an earlier one, as dict assignment does. -/

abbrev Registry (α : Type) := List (Str × α)

/-- `d[k] = v`. -/
def rinsert (r : Registry α) (k : Str) (v : α) : Registry α := (k, v) :: r

/-- `d[k]` (with `none` for `KeyError`). -/
def rlookup (r : Registry α) (k : Str) : Option α :=
  match r with
  | [] => none
  | (k', v) :: rest => if k' = k then some v else rlookup rest k

/-- The diagnostic line printed by `FileItem.target` for a missing name. -/
def undefMsg (selfName nm : Str) : Str :=
  str "Undefined name in " ++ selfName ++ str ": " ++ nm

/-- `FileItem.target`: resolve a see-also name against the `leaf` registry;
returns the rendered role plus the printed diagnostic lines. -/
def targetF (leaf : Registry Item) (selfName nm : Str) : Str × List Str :=
  match rlookup leaf nm with
  | none => (rstRole (str "func") nm, [undefMsg selfName nm])
  | some t => (rstRole t.kind.role t.name, [])

/-- Result of `FileItem.gen`: the emitted lines, the printed diagnostics,
and the item as left behind by the call (`contents = self.contents` aliases
the stored list, so the appended see-also line lands in the item). -/
structure GenRes where
  out : List Str
  diags : List Str
  item : Item
deriving DecidableEq, Repr

/-- `FileItem.gen` with the default `RstBuilder`. -/
def genItem (leaf : Registry Item) (it : Item) : GenRes :=
  let pr :=
    if it.see_also.isEmpty then (it.contents, ([] : List Str))
    else
      let sas := it.see_also.map (targetF leaf it.name)
      (it.contents ++ [str "See also " ++ joinSep (str ", ") (sas.map Prod.fst)],
       (sas.map Prod.snd).flatten)
  let body := if pr.1.isEmpty then [] else rstLineBlock pr.1
  ⟨rstDirective it.kind.defn (it.name ++ it.arguments) [] body, pr.2,
   { it with contents := pr.1 }⟩

/-! ### The directory walk (`PackageItem`) -/

/-- A directory tree entry: `pth.iterdir()` yields these in list order. -/
inductive FSEntry where
  | file (nm : Str) (lines : List Str)
  | dir (nm : Str) (entries : List FSEntry)

/-- A constructed `PackageItem` (recursive, hence an inductive). -/
inductive Pkg where
  | mk (pid : Str) (name : Str) (descr : Str)
      (subpackages : List Pkg) (functions : List Item) (classes : List Item)

def Pkg.pid : Pkg → Str | .mk i _ _ _ _ _ => i
def Pkg.name : Pkg → Str | .mk _ n _ _ _ _ => n
def Pkg.descr : Pkg → Str | .mk _ _ d _ _ _ => d
def Pkg.subpackages : Pkg → List Pkg | .mk _ _ _ s _ _ => s
def Pkg.functions : Pkg → List Item | .mk _ _ _ _ f _ => f
def Pkg.classes : Pkg → List Item | .mk _ _ _ _ _ c => c

/-- `PackageItem.sz`. -/
def Pkg.sz (p : Pkg) : Nat :=
  p.subpackages.length + p.functions.length + p.classes.length

/-- The two process-wide registries. -/
structure Regs where
  node : Registry Pkg
  leaf : Registry Item

/-- The mutable state of one `PackageItem` under construction, together
with the global registries. -/
structure WSt where
  regs : Regs
  subpackages : List Pkg
  functions : List Item
  classes : List Item
  descr : Str

/-- `PackageItem.get_lines`: skip to the first `%` line (stripped on both
sides), then the contiguous run of `%` lines (right-stripped). -/
def getLines (ls : List Str) : List Str :=
  match ls.dropWhile (fun l => !startsW (str "%") l) with
  | [] => []
  | first :: rest =>
    stripL (first.drop 1) ::
      (rest.takeWhile (startsW (str "%"))).map (fun l => rstripL (l.drop 1))

/-- `PackageItem.CONTENTS_FILE`. -/
def contentsFileName : Str := str "Contents.m"

/-- `PackageItem._store_item`: on success register under the case-folded
name and append to the kind's container; on `TypeError` skip. -/
def storeItem (st : WSt) (kind : MKind) (nm : Str) (contents : List Str) : WSt :=
  match itemOfContents kind nm contents with
  | none => st
  | some it =>
    let st' := { st with regs := { st.regs with leaf := rinsert st.regs.leaf (lowerS nm) it } }
    match kind with
    | .func => { st' with functions := st'.functions ++ [it] }
    | .cls => { st' with classes := st'.classes ++ [it] }
    | .script => st'

/-- `PackageItem._handle_script_file`: the `TypeError` of a failed
`ScriptItem` construction is caught (the walk continues); a successful
index-file item supplies the package description. -/
def handleScriptFile (st : WSt) (fname nm : Str) (contents : List Str) : WSt :=
  match itemOfContents .script nm contents with
  | none => st
  | some it => if fname = contentsFileName then { st with descr := it.descr } else st

/-- `PackageItem._process_matlab_file`: classify by the first line;
`none` models the uncaught `StopIteration` on an empty file. -/
def processFile (st : WSt) (fname : Str) : List Str → Option WSt
  | [] => if psuffix fname = str ".m" then none else some st
  | l0 :: rest =>
    if psuffix fname = str ".m" then
      if startsW (str "%") (rstripL l0) then
        some (handleScriptFile st fname (pstem fname)
          ((rstripL l0).drop 1 :: getLines rest))
      else if containsSub (str "function") (rstripL l0) then
        some (storeItem st .func (pstem fname) (getLines rest))
      else if containsSub (str "classdef") (rstripL l0) then
        some (storeItem st .cls (pstem fname) (getLines rest))
      else some st
    else some st

/-- The exclusion test of `_handle_subdirectory` (applied to the
directory's `stem`). -/
def excludedStem (s : Str) : Bool :=
  s = str "private" || s.getLast? = some '@'

mutual

/-- The `for file_path in pth.iterdir()` loop of `_process_directory`. -/
def walkEntries (recur : Bool) (relParts : List Str) (st : WSt) :
    List FSEntry → Option WSt
  | [] => some st
  | e :: rest =>
    match walkEntry recur relParts st e with
    | none => none
    | some st' => walkEntries recur relParts st' rest

/-- One directory entry: `_handle_subdirectory` for directories (children
are always built with `recursive=True`), `_process_matlab_file` for files.
A pruned child (`sz = 0`) still leaves its registry side effects behind,
since the registries are class-level dicts. -/
def walkEntry (recur : Bool) (relParts : List Str) (st : WSt) :
    FSEntry → Option WSt
  | .file nm lines => processFile st nm lines
  | .dir nm entries =>
    if !recur then some st
    else
      let s := pstem nm
      if excludedStem s then some st
      else
        match walkEntries true (relParts ++ [nm])
            ⟨st.regs, [], [], [], upperS nm⟩ entries with
        | none => none
        | some cst =>
          let child := Pkg.mk (joinSep (str ".") (relParts ++ [nm])) s cst.descr
            (sortByKey Pkg.name cst.subpackages)
            (sortByKey Item.name cst.functions)
            (sortByKey Item.name cst.classes)
          if 0 < child.sz then
            some { st with
              regs := { cst.regs with node := rinsert cst.regs.node (lowerS s) child },
              subpackages := st.subpackages ++ [child] }
          else some { st with regs := cst.regs }

end

/-- `PackageItem.__init__` for a directory given as its name, entry list,
relative-to-root parts and the current registries. -/
def walkDir (recur : Bool) (relParts : List Str) (dirName : Str)
    (entries : List FSEntry) (regs : Regs) : Option (Pkg × Regs) :=
  match walkEntries recur relParts ⟨regs, [], [], [], upperS dirName⟩ entries with
  | none => none
  | some st =>
    some (Pkg.mk (joinSep (str ".") relParts) (pstem dirName) st.descr
      (sortByKey Pkg.name st.subpackages)
      (sortByKey Item.name st.functions)
      (sortByKey Item.name st.classes), st.regs)

/-! ### Specification-side descriptions

The definitions below restate, directly from the specification's wording,
what `scan` and the walk are supposed to compute; the claim theorems relate
them to the operational definitions above. -/

/-- The argument-group captures of the matches of one line, in match
order (mirrors the match sequence of `reSubAux` without the state). -/
def capsAux (nameLower s : Str) : Nat → Nat → List Str
  | 0, _ => []
  | fuel + 1, pos =>
    match findMatchFrom nameLower s pos with
    | none => []
    | some (i, len, g2) =>
      if len = 0 then [] else g2.toList ++ capsAux nameLower s fuel (i + len)

/-- Pure per-line emphasis: the rendered line is independent of the
`self.arguments` state. -/
def emphLine (nm line : Str) : Str := (reSubLine nm [] line).1

/-- The argument captures of one line. -/
def lineCaps (nm line : Str) : List Str :=
  capsAux (lowerS nm) line (line.length + 1) 0

/-- A body line that is kept (does not contain the "See also" marker). -/
def notSeeAlso (l : Str) : Bool := (findSub seeAlsoMarker l).isNone

/-- Spec body: every non-"See also" line, each independently emphasized. -/
def bodySpec (nm : Str) (lines : List Str) : List Str :=
  (lines.filter notSeeAlso).map (emphLine nm)

/-- All argument captures across the kept body lines, in order. -/
def bodyCaps (nm : Str) (lines : List Str) : List Str :=
  ((lines.filter notSeeAlso).map (lineCaps nm)).flatten

/-- Spec `see_also`: the token set of the last "See also" line (last one
wins), empty when there is none. -/
def seeAlsoSpec (lines : List Str) : List Str :=
  ((lines.filterMap (fun l =>
      (findSub seeAlsoMarker l).map (fun idx => seeAlsoTokens l idx))).getLast?).getD []

/-- Spec `argument_signature`: the first (nonempty) argument capture across
all body lines, case-folded; empty when there is none. -/
def firstSigSpec (nm : Str) (lines : List Str) : Str :=
  match (bodyCaps nm lines).filter (fun g => !g.isEmpty) with
  | [] => []
  | g :: _ => lowerS g

mutual

/-- All packages appearing in any `subpackages` list of the tree. -/
def allSubs : Pkg → List Pkg
  | .mk _ _ _ subs _ _ => subs ++ allSubsList subs

def allSubsList : List Pkg → List Pkg
  | [] => []
  | p :: rest => allSubs p ++ allSubsList rest

end

mutual

/-- All function and class items owned anywhere in the tree. -/
def allItems : Pkg → List Item
  | .mk _ _ _ subs fns cls => fns ++ cls ++ allItemsList subs

def allItemsList : List Pkg → List Item
  | [] => []
  | p :: rest => allItems p ++ allItemsList rest

end

/-! ### Concrete sample data used in the claim analyses -/

/-- Placeholder item for `Option.getD`. -/
def noItem : Item := ⟨[], [], [], [], [], .func⟩

/-- Placeholder package for `Option.getD`. -/
def noPkg : Pkg := .mk [] [] [] [] [] []

/-- A registered function item named `bar`. -/
def barItem : Item := ⟨str "bar", [], str "b", [], [str "b"], .func⟩

/-- An item named `foo` whose documentation refers to `bar`. -/
def fooItem : Item := ⟨str "foo", [], str "x", [str "bar"], [str "x"], .func⟩

/-- A leaf registry binding `bar`. -/
def sampleLeaf : Registry Item := [(str "bar", barItem)]

/-- A directory whose first entry is a script file refused by the private
exclusion, followed by an ordinary function file. -/
def privateScriptTree : List FSEntry :=
  [.file (str "ascript.m") [str "%this is private stuff"],
   .file (str "func1.m") [str "function y = func1(x)", str "%FUNC1 does things"]]

/-- A directory with a plain (non-index) script file and a function file. -/
def scriptTree : List FSEntry :=
  [.file (str "myscript.m") [str "%MYSCRIPT nice script", str "% body"],
   .file (str "f.m") [str "function y = f(x)", str "%F fine"]]

/-- A directory with a single function file. -/
def c8tree : List FSEntry :=
  [.file (str "f.m") [str "function y = f(x)", str "%F fine"]]

/-- The walk result on `c8tree`. -/
def c8res : Pkg × Regs :=
  (walkDir true [str "pkg"] (str "pkg") c8tree ⟨[], []⟩).getD (noPkg, ⟨[], []⟩)

/-- The function item built from `f.m`. -/
def c8fItem : Item :=
  (itemOfContents .func (str "f") (getLines [str "%F fine"])).getD noItem

/-- A directory containing a subdirectory whose name ends in `@` but whose
stem does not (the stem is `x`, the suffix `.y@`). -/
def c9tree : List FSEntry :=
  [.dir (str "x.y@") [.file (str "g.m") [str "function g", str "%G good"]]]

/-- The walk result on `c9tree`. -/
def c9res : Pkg × Regs :=
  (walkDir true [str "root"] (str "root") c9tree ⟨[], []⟩).getD (noPkg, ⟨[], []⟩)

/-- The subpackage produced by traversing `x.y@`. -/
def c9sub : Pkg := (allSubs c9res.1).getD 0 noPkg

/-- A constructed item whose header exercises the self-reference pattern. -/
def c5item : Item :=
  (itemOfContents .func (str "foo")
    [str "FOO t", str "a = Foo(X) and foo"]).getD noItem

/-- A constructed item with two "See also" lines. -/
def c6item : Item :=
  (itemOfContents .func (str "foo")
    [str "FOO t", str "   See also alpha, beta", str "body foo",
     str "   See also GAMMA"]).getD noItem

/-- A constructed item whose header carries surrounding whitespace. -/
def c4item : Item :=
  (itemOfContents .func (str "foo") [str "  FOO does things  "]).getD noItem

/-- The index-file item of a `Contents.m` header. -/
def c10item : Item :=
  (itemOfContents .script (str "Contents")
    ((rstripL (str "%PKG utilities")).drop 1 :: getLines [])).getD noItem

/-! ### Invariant predicates for the walk -/

/-- Key–value discipline of the `leaf` registry: each entry is stored
under the case-folded name of its item. -/
def leafWF (leaf : Registry Item) : Prop := ∀ p ∈ leaf, p.1 = lowerS p.2.name

/-- The item has a binding under its case-folded name. -/
def boundIn (leaf : Registry Item) (it : Item) : Prop :=
  (rlookup leaf (lowerS it.name)).isSome

/-- Registry growth: every bound key stays bound. -/
def leafLe (a b : Registry Item) : Prop :=
  ∀ k, (rlookup a k).isSome → (rlookup b k).isSome

/-- Every package below `p` is non-empty. -/
def goodP (p : Pkg) : Prop := ∀ q ∈ allSubs p, 0 < q.sz

/-- Invariant of the walk state: collected subpackages are non-empty with
non-empty descendants, and every collected item is bound in the leaf
registry. -/
def stInv (st : WSt) : Prop :=
  (∀ p ∈ st.subpackages, 0 < p.sz ∧ goodP p) ∧
  (∀ it ∈ st.functions, boundIn st.regs.leaf it) ∧
  (∀ it ∈ st.classes, boundIn st.regs.leaf it) ∧
  (∀ p ∈ st.subpackages, ∀ it ∈ allItems p, boundIn st.regs.leaf it)

/-! ## Lemmas -/

theorem argStep_keep (args g : Str) (h : args ≠ []) : argStep args g = args := by
  simp [argStep, List.isEmpty_iff, h]

theorem foldl_argStep_keep (l : List Str) (args : Str) (h : args ≠ []) :
    l.foldl argStep args = args := by
  induction l with
  | nil => rfl
  | cons g rest ih => rw [List.foldl_cons, argStep_keep args g h]; exact ih

theorem lowerS_ne_nil (g : Str) (h : g ≠ []) : lowerS g ≠ [] := by
  cases g with
  | nil => exact absurd rfl h
  | cons c rest => simp [lowerS]

theorem foldl_argStep_first (l : List Str) :
    l.foldl argStep [] = (match l.filter (fun g => !g.isEmpty) with
      | [] => ([] : Str)
      | g :: _ => lowerS g) := by
  induction l with
  | nil => rfl
  | cons g rest ih =>
    rw [List.foldl_cons]
    by_cases hg : g = []
    · subst hg
      simpa [argStep] using ih
    · have h1 : argStep [] g = lowerS g := by
        simp [argStep, List.isEmpty_iff, hg]
      rw [h1, foldl_argStep_keep rest (lowerS g) (lowerS_ne_nil g hg)]
      simp [List.filter_cons, List.isEmpty_iff, hg]

theorem reSubAux_split (nm nameLower s : Str) (fuel : Nat) :
    ∀ pos args, reSubAux nm nameLower s fuel pos args =
      ((reSubAux nm nameLower s fuel pos []).1,
        (capsAux nameLower s fuel pos).foldl argStep args) := by
  induction fuel with
  | zero => intro pos args; simp [reSubAux, capsAux]
  | succ fuel ih =>
    intro pos args
    simp only [reSubAux, capsAux]
    cases h : findMatchFrom nameLower s pos with
    | none => simp
    | some r =>
      obtain ⟨i, len, g2⟩ := r
      by_cases hl : len = 0
      · simp [hl]
      · simp only [hl, if_false]
        cases g2 with
        | none =>
          simp only
          rw [ih (i + len) args, ih (i + len) []]
          simp
        | some g =>
          simp only
          rw [ih (i + len) (argStep args g), ih (i + len) (argStep [] g)]
          simp

theorem reSubLine_split (nm args line : Str) :
    reSubLine nm args line =
      (emphLine nm line, (lineCaps nm line).foldl argStep args) := by
  rw [reSubLine, reSubAux_split]
  rfl

theorem getLastD_cons (l : List (List Str)) : ∀ t sa : List Str,
    ((t :: l).getLast?).getD sa = (l.getLast?).getD t := by
  induction l with
  | nil => intro t sa; rfl
  | cons b l' ih =>
    intro t sa
    rw [List.getLast?_cons_cons]
    calc ((b :: l').getLast?).getD sa = (l'.getLast?).getD b := ih b sa
    _ = ((b :: l').getLast?).getD t := (ih b t).symm

theorem scanBody_spec (nm : Str) (lines : List Str) : ∀ args sa,
    scanBody nm args sa lines =
      ⟨bodySpec nm lines,
       (bodyCaps nm lines).foldl argStep args,
       ((lines.filterMap (fun l =>
          (findSub seeAlsoMarker l).map (fun idx => seeAlsoTokens l idx))).getLast?).getD sa⟩ := by
  induction lines with
  | nil => intro args sa; simp [scanBody, bodySpec, bodyCaps]
  | cons line rest ih =>
    intro args sa
    cases h : findSub seeAlsoMarker line with
    | some idx =>
      simp only [scanBody, h]
      rw [ih args (seeAlsoTokens line idx)]
      have hns : notSeeAlso line = false := by simp [notSeeAlso, h]
      simp only [bodySpec, bodyCaps, List.filter_cons, hns, Bool.false_eq_true,
        if_false, List.filterMap_cons, h, Option.map_some']
      rw [getLastD_cons]
    | none =>
      have hns : notSeeAlso line = true := by simp [notSeeAlso, h]
      simp only [scanBody, h]
      rw [reSubLine_split]
      rw [ih ((lineCaps nm line).foldl argStep args) sa]
      simp only [bodySpec, bodyCaps, List.filter_cons, hns, if_true,
        List.filterMap_cons, h, Option.map_none', List.map_cons,
        List.flatten_cons, List.foldl_append]

theorem itemOfContents_fields (kind : MKind) (nm first : Str) (rest : List Str)
    (it : Item) (h : itemOfContents kind nm (first :: rest) = some it) :
    it.name = nm ∧
    it.descr = stripL (replaceAll (upperS nm) [] first) ∧
    it.contents = it.descr :: bodySpec nm rest ∧
    it.arguments = (bodyCaps nm rest).foldl argStep [] ∧
    it.see_also = seeAlsoSpec rest ∧
    it.kind = kind := by
  rw [itemOfContents] at h
  by_cases hp : containsSub (str "private") (lowerS first) = true
  · rw [if_pos hp] at h; exact absurd h (by simp)
  · rw [if_neg hp] at h
    rw [scanBody_spec nm rest [] []] at h
    obtain ⟨rfl⟩ := Option.some_injective _ h |>.symm
    refine ⟨rfl, rfl, rfl, rfl, ?_, rfl⟩
    rfl

theorem itemOfContents_name (kind : MKind) (nm : Str) (cs : List Str)
    (it : Item) (h : itemOfContents kind nm cs = some it) : it.name = nm := by
  cases cs with
  | nil =>
    rw [itemOfContents] at h
    obtain ⟨rfl⟩ := Option.some_injective _ h |>.symm
    rfl
  | cons first rest => exact (itemOfContents_fields kind nm first rest it h).1

theorem rlookup_rinsert (r : Registry α) (k : Str) (v : α) :
    rlookup (rinsert r k v) k = some v := by
  simp [rinsert, rlookup]

theorem rlookup_rinsert_isSome (r : Registry α) (k k' : Str) (v : α)
    (h : (rlookup r k').isSome) : (rlookup (rinsert r k v) k').isSome := by
  by_cases hk : k = k'
  · subst hk; simp [rlookup_rinsert]
  · simpa [rinsert, rlookup, hk] using h

theorem rlookup_mem (r : Registry α) (k : Str) (v : α)
    (h : rlookup r k = some v) : (k, v) ∈ r := by
  induction r with
  | nil => simp [rlookup] at h
  | cons p rest ih =>
    rw [rlookup] at h
    by_cases hk : p.1 = k
    · rw [if_pos hk] at h
      obtain ⟨rfl⟩ := Option.some_injective _ h
      have hp : (k, p.2) = p := by rw [← hk]
      rw [hp]
      exact List.mem_cons_self p rest
    · rw [if_neg hk] at h
      exact List.mem_cons_of_mem p (ih h)

theorem leafLe_refl (a : Registry Item) : leafLe a a := fun _ h => h

theorem leafLe_trans {a b c : Registry Item} (h1 : leafLe a b) (h2 : leafLe b c) :
    leafLe a c := fun k h => h2 k (h1 k h)

theorem mem_insSorted (key : α → Str) (x a : α) (l : List α) :
    a ∈ insSorted key x l ↔ a = x ∨ a ∈ l := by
  induction l with
  | nil => simp [insSorted]
  | cons y ys ih =>
    rw [insSorted]
    by_cases hc : ltStr (key x) (key y) = true
    · simp [hc]
    · rw [if_neg hc]
      simp only [List.mem_cons, ih]
      tauto

theorem mem_sortByKey (key : α → Str) (l : List α) (a : α) :
    a ∈ sortByKey key l ↔ a ∈ l := by
  have main : ∀ (l acc : List α), a ∈ l.foldl (fun acc x => insSorted key x acc) acc
      ↔ a ∈ acc ∨ a ∈ l := by
    intro l
    induction l with
    | nil => intro acc; simp
    | cons x xs ih =>
      intro acc
      rw [List.foldl_cons, ih, mem_insSorted]
      simp only [List.mem_cons]
      tauto
  rw [sortByKey, main]
  simp

theorem mem_allSubsList (q : Pkg) (l : List Pkg) :
    q ∈ allSubsList l ↔ ∃ p ∈ l, q ∈ allSubs p := by
  induction l with
  | nil => simp [allSubsList]
  | cons p rest ih =>
    rw [allSubsList]
    simp only [List.mem_append, ih, List.mem_cons]
    constructor
    · rintro (h | ⟨p', hp', hq⟩)
      · exact ⟨p, Or.inl rfl, h⟩
      · exact ⟨p', Or.inr hp', hq⟩
    · rintro ⟨p', rfl | hp', hq⟩
      · exact Or.inl hq
      · exact Or.inr ⟨p', hp', hq⟩

theorem mem_allItemsList (q : Item) (l : List Pkg) :
    q ∈ allItemsList l ↔ ∃ p ∈ l, q ∈ allItems p := by
  induction l with
  | nil => simp [allItemsList]
  | cons p rest ih =>
    rw [allItemsList]
    simp only [List.mem_append, ih, List.mem_cons]
    constructor
    · rintro (h | ⟨p', hp', hq⟩)
      · exact ⟨p, Or.inl rfl, h⟩
      · exact ⟨p', Or.inr hp', hq⟩
    · rintro ⟨p', rfl | hp', hq⟩
      · exact Or.inl hq
      · exact Or.inr ⟨p', hp', hq⟩

theorem storeItem_inv (st : WSt) (kind : MKind) (nm : Str) (contents : List Str) :
    leafLe st.regs.leaf (storeItem st kind nm contents).regs.leaf ∧
    (leafWF st.regs.leaf → leafWF (storeItem st kind nm contents).regs.leaf) ∧
    (stInv st → stInv (storeItem st kind nm contents)) := by
  rw [storeItem]
  cases h : itemOfContents kind nm contents with
  | none => exact ⟨leafLe_refl _, fun hwf => hwf, fun hi => hi⟩
  | some it =>
    have hname : it.name = nm := itemOfContents_name kind nm contents it h
    have hle : leafLe st.regs.leaf (rinsert st.regs.leaf (lowerS nm) it) :=
      fun k hk => rlookup_rinsert_isSome _ _ _ _ hk
    have hwf : leafWF st.regs.leaf → leafWF (rinsert st.regs.leaf (lowerS nm) it) := by
      intro hwf p hp
      rcases List.mem_cons.mp hp with hp | hp
      · subst hp; simp [hname]
      · exact hwf p hp
    have hbit : boundIn (rinsert st.regs.leaf (lowerS nm) it) it := by
      rw [boundIn, hname, rlookup_rinsert]
      rfl
    cases kind with
    | script =>
      refine ⟨hle, hwf, fun hi => ⟨hi.1, ?_, ?_, ?_⟩⟩
      · exact fun i hi' => hle _ (hi.2.1 i hi')
      · exact fun i hi' => hle _ (hi.2.2.1 i hi')
      · exact fun p hp i hi' => hle _ (hi.2.2.2 p hp i hi')
    | func =>
      refine ⟨hle, hwf, fun hi => ⟨hi.1, ?_, ?_, ?_⟩⟩
      · intro i hi'
        rcases List.mem_append.mp hi' with hi' | hi'
        · exact hle _ (hi.2.1 i hi')
        · rw [List.mem_singleton.mp hi']
          exact hbit
      · exact fun i hi' => hle _ (hi.2.2.1 i hi')
      · exact fun p hp i hi' => hle _ (hi.2.2.2 p hp i hi')
    | cls =>
      refine ⟨hle, hwf, fun hi => ⟨hi.1, ?_, ?_, ?_⟩⟩
      · exact fun i hi' => hle _ (hi.2.1 i hi')
      · intro i hi'
        rcases List.mem_append.mp hi' with hi' | hi'
        · exact hle _ (hi.2.2.1 i hi')
        · rw [List.mem_singleton.mp hi']
          exact hbit
      · exact fun p hp i hi' => hle _ (hi.2.2.2 p hp i hi')

theorem handleScriptFile_inv (st : WSt) (fname nm : Str) (contents : List Str) :
    (handleScriptFile st fname nm contents).regs = st.regs ∧
    (handleScriptFile st fname nm contents).subpackages = st.subpackages ∧
    (handleScriptFile st fname nm contents).functions = st.functions ∧
    (handleScriptFile st fname nm contents).classes = st.classes := by
  cases h : itemOfContents .script nm contents with
  | none => simp [handleScriptFile, h]
  | some it =>
    by_cases hc : fname = contentsFileName
    · simp [handleScriptFile, h, hc]
    · simp [handleScriptFile, h, hc]

theorem stInv_regs_eq {st st' : WSt} (hr : st'.regs = st.regs)
    (hs : st'.subpackages = st.subpackages) (hf : st'.functions = st.functions)
    (hc : st'.classes = st.classes) (hi : stInv st) : stInv st' := by
  rw [stInv, hr, hs, hf, hc]
  exact hi

theorem processFile_inv (st : WSt) (fname : Str) (flines : List Str) (st' : WSt)
    (h : processFile st fname flines = some st') :
    leafLe st.regs.leaf st'.regs.leaf ∧
    (leafWF st.regs.leaf → leafWF st'.regs.leaf) ∧
    (stInv st → stInv st') := by
  cases flines with
  | nil =>
    rw [processFile] at h
    by_cases hm : psuffix fname = str ".m"
    · rw [if_pos hm] at h; exact absurd h (by simp)
    · rw [if_neg hm] at h
      obtain ⟨rfl⟩ := Option.some_injective _ h |>.symm
      exact ⟨leafLe_refl _, fun w => w, fun i => i⟩
  | cons l0 rest =>
    rw [processFile] at h
    by_cases hm : psuffix fname = str ".m"
    · rw [if_pos hm] at h
      by_cases hs : startsW (str "%") (rstripL l0) = true
      · rw [if_pos hs] at h
        obtain ⟨rfl⟩ := Option.some_injective _ h |>.symm
        obtain ⟨hr, hsub, hf, hc⟩ := handleScriptFile_inv st fname (pstem fname)
          ((rstripL l0).drop 1 :: getLines rest)
        rw [hr]
        exact ⟨leafLe_refl _, fun w => w, stInv_regs_eq hr hsub hf hc⟩
      · rw [if_neg hs] at h
        by_cases hf : containsSub (str "function") (rstripL l0) = true
        · rw [if_pos hf] at h
          obtain ⟨rfl⟩ := Option.some_injective _ h |>.symm
          exact storeItem_inv st .func (pstem fname) (getLines rest)
        · rw [if_neg hf] at h
          by_cases hcl : containsSub (str "classdef") (rstripL l0) = true
          · rw [if_pos hcl] at h
            obtain ⟨rfl⟩ := Option.some_injective _ h |>.symm
            exact storeItem_inv st .cls (pstem fname) (getLines rest)
          · rw [if_neg hcl] at h
            obtain ⟨rfl⟩ := Option.some_injective _ h |>.symm
            exact ⟨leafLe_refl _, fun w => w, fun i => i⟩
    · rw [if_neg hm] at h
      obtain ⟨rfl⟩ := Option.some_injective _ h |>.symm
      exact ⟨leafLe_refl _, fun w => w, fun i => i⟩

theorem stInv_init (regs : Regs) (d : Str) : stInv ⟨regs, [], [], [], d⟩ :=
  ⟨fun p hp => absurd hp (List.not_mem_nil p),
   fun i hi => absurd hi (List.not_mem_nil i),
   fun i hi => absurd hi (List.not_mem_nil i),
   fun p hp => absurd hp (List.not_mem_nil p)⟩

theorem child_goodP (cst : WSt) (hcinv : stInv cst) (pid nm d : Str) :
    goodP (Pkg.mk pid nm d (sortByKey Pkg.name cst.subpackages)
      (sortByKey Item.name cst.functions) (sortByKey Item.name cst.classes)) := by
  intro q hq
  rw [allSubs] at hq
  rcases List.mem_append.mp hq with hq | hq
  · exact (hcinv.1 q ((mem_sortByKey _ _ _).mp hq)).1
  · obtain ⟨p', hp', hq'⟩ := (mem_allSubsList q _).mp hq
    exact (hcinv.1 p' ((mem_sortByKey _ _ _).mp hp')).2 q hq'

theorem child_items_bound (cst : WSt) (hcinv : stInv cst) (pid nm d : Str) :
    ∀ it ∈ allItems (Pkg.mk pid nm d (sortByKey Pkg.name cst.subpackages)
      (sortByKey Item.name cst.functions) (sortByKey Item.name cst.classes)),
      boundIn cst.regs.leaf it := by
  intro it hit
  rw [allItems] at hit
  rcases List.mem_append.mp hit with hit | hit
  · rcases List.mem_append.mp hit with hit | hit
    · exact hcinv.2.1 it ((mem_sortByKey _ _ _).mp hit)
    · exact hcinv.2.2.1 it ((mem_sortByKey _ _ _).mp hit)
  · obtain ⟨p', hp', hit'⟩ := (mem_allItemsList it _).mp hit
    exact hcinv.2.2.2 p' ((mem_sortByKey _ _ _).mp hp') it hit'

mutual

theorem walkEntry_inv (e : FSEntry) : ∀ (recur : Bool) (relParts : List Str)
    (st st' : WSt), walkEntry recur relParts st e = some st' →
    leafLe st.regs.leaf st'.regs.leaf ∧
    (leafWF st.regs.leaf → leafWF st'.regs.leaf) ∧
    (stInv st → stInv st') := by
  cases e with
  | file nm lines =>
    intro recur relParts st st' h
    rw [walkEntry] at h
    exact processFile_inv st nm lines st' h
  | dir nm entries =>
    intro recur relParts st st' h
    cases recur with
    | false =>
      rw [walkEntry] at h
      simp only [Bool.not_false, if_true] at h
      obtain ⟨rfl⟩ := Option.some_injective _ h |>.symm
      exact ⟨leafLe_refl _, fun w => w, fun i => i⟩
    | true =>
      rw [walkEntry] at h
      simp only [Bool.not_true, Bool.false_eq_true, if_false] at h
      by_cases hex : excludedStem (pstem nm) = true
      · rw [if_pos hex] at h
        obtain ⟨rfl⟩ := Option.some_injective _ h |>.symm
        exact ⟨leafLe_refl _, fun w => w, fun i => i⟩
      · rw [if_neg hex] at h
        cases hw : walkEntries true (relParts ++ [nm])
            ⟨st.regs, [], [], [], upperS nm⟩ entries with
        | none => rw [hw] at h; exact absurd h (by simp)
        | some cst =>
          rw [hw] at h
          obtain ⟨hle, hwf, hinvf⟩ :=
            walkEntries_inv entries true (relParts ++ [nm])
              ⟨st.regs, [], [], [], upperS nm⟩ cst hw
          have hcinv : stInv cst := hinvf (stInv_init st.regs (upperS nm))
          simp only at h
          by_cases hsz : 0 < (Pkg.mk (joinSep (str ".") (relParts ++ [nm]))
              (pstem nm) cst.descr (sortByKey Pkg.name cst.subpackages)
              (sortByKey Item.name cst.functions)
              (sortByKey Item.name cst.classes)).sz
          · rw [if_pos hsz] at h
            obtain ⟨rfl⟩ := Option.some_injective _ h |>.symm
            refine ⟨hle, hwf, fun hinv => ⟨?_, ?_, ?_, ?_⟩⟩
            · intro p hp
              rcases List.mem_append.mp hp with hp | hp
              · exact hinv.1 p hp
              · rw [List.mem_singleton.mp hp]
                exact ⟨hsz, child_goodP cst hcinv _ _ _⟩
            · exact fun i hi => hle _ (hinv.2.1 i hi)
            · exact fun i hi => hle _ (hinv.2.2.1 i hi)
            · intro p hp i hi
              rcases List.mem_append.mp hp with hp | hp
              · exact hle _ (hinv.2.2.2 p hp i hi)
              · rw [List.mem_singleton.mp hp] at hi
                exact child_items_bound cst hcinv _ _ _ i hi
          · rw [if_neg hsz] at h
            obtain ⟨rfl⟩ := Option.some_injective _ h |>.symm
            refine ⟨hle, hwf, fun hinv => ⟨hinv.1, ?_, ?_, ?_⟩⟩
            · exact fun i hi => hle _ (hinv.2.1 i hi)
            · exact fun i hi => hle _ (hinv.2.2.1 i hi)
            · exact fun p hp i hi => hle _ (hinv.2.2.2 p hp i hi)

theorem walkEntries_inv (es : List FSEntry) : ∀ (recur : Bool) (relParts : List Str)
    (st st' : WSt), walkEntries recur relParts st es = some st' →
    leafLe st.regs.leaf st'.regs.leaf ∧
    (leafWF st.regs.leaf → leafWF st'.regs.leaf) ∧
    (stInv st → stInv st') := by
  cases es with
  | nil =>
    intro recur relParts st st' h
    rw [walkEntries] at h
    obtain ⟨rfl⟩ := Option.some_injective _ h |>.symm
    exact ⟨leafLe_refl _, fun w => w, fun i => i⟩
  | cons e rest =>
    intro recur relParts st st' h
    rw [walkEntries] at h
    cases he : walkEntry recur relParts st e with
    | none => rw [he] at h; exact absurd h (by simp)
    | some st1 =>
      rw [he] at h
      simp only at h
      obtain ⟨le1, wf1, inv1⟩ := walkEntry_inv e recur relParts st st1 he
      obtain ⟨le2, wf2, inv2⟩ := walkEntries_inv rest recur relParts st1 st' h
      exact ⟨leafLe_trans le1 le2, fun w => wf2 (wf1 w), fun i => inv2 (inv1 i)⟩

end

theorem walkDir_inv (recur : Bool) (relParts : List Str) (dirName : Str)
    (entries : List FSEntry) (regs : Regs) (pkg : Pkg) (regs' : Regs)
    (h : walkDir recur relParts dirName entries regs = some (pkg, regs')) :
    leafLe regs.leaf regs'.leaf ∧
    (leafWF regs.leaf → leafWF regs'.leaf) ∧
    (∀ p ∈ pkg.subpackages, 0 < p.sz ∧ goodP p) ∧
    (∀ it ∈ allItems pkg, boundIn regs'.leaf it) := by
  rw [walkDir] at h
  cases hw : walkEntries recur relParts ⟨regs, [], [], [], upperS dirName⟩ entries with
  | none => rw [hw] at h; exact absurd h (by simp)
  | some st =>
    rw [hw] at h
    simp only at h
    obtain ⟨hpkg, rfl⟩ : pkg = Pkg.mk (joinSep (str ".") relParts) (pstem dirName)
        st.descr (sortByKey Pkg.name st.subpackages)
        (sortByKey Item.name st.functions) (sortByKey Item.name st.classes)
        ∧ regs' = st.regs := by
      have := Option.some_injective _ h
      exact ⟨congrArg Prod.fst this.symm, congrArg Prod.snd this.symm⟩
    subst hpkg
    obtain ⟨hle, hwf, hinvf⟩ :=
      walkEntries_inv entries recur relParts ⟨regs, [], [], [], upperS dirName⟩ st hw
    have hst : stInv st := hinvf (stInv_init regs (upperS dirName))
    refine ⟨hle, hwf, ?_, ?_⟩
    · intro p hp
      rw [Pkg.subpackages] at hp
      exact hst.1 p ((mem_sortByKey _ _ _).mp hp)
    · exact child_items_bound st hst _ _ _

theorem walkEntries_cons_skip (recur : Bool) (relParts : List Str) (st : WSt)
    (e : FSEntry) (l : List FSEntry)
    (h : walkEntry recur relParts st e = some st) :
    walkEntries recur relParts st (e :: l) = walkEntries recur relParts st l := by
  rw [walkEntries, h]

theorem skip_script_file (recur : Bool) (relParts : List Str) (st : WSt)
    (l : List FSEntry) (fname l0 : Str) (rest : List Str)
    (hm : psuffix fname = str ".m")
    (hs : startsW (str "%") (rstripL l0) = true)
    (hfail : itemOfContents .script (pstem fname)
      ((rstripL l0).drop 1 :: getLines rest) = none) :
    walkEntries recur relParts st (.file fname (l0 :: rest) :: l) =
      walkEntries recur relParts st l := by
  apply walkEntries_cons_skip
  rw [walkEntry, processFile, if_pos hm, if_pos hs, handleScriptFile, hfail]

theorem skip_func_file (recur : Bool) (relParts : List Str) (st : WSt)
    (l : List FSEntry) (fname l0 : Str) (rest : List Str)
    (hm : psuffix fname = str ".m")
    (hs : startsW (str "%") (rstripL l0) = false)
    (hfn : containsSub (str "function") (rstripL l0) = true)
    (hfail : itemOfContents .func (pstem fname) (getLines rest) = none) :
    walkEntries recur relParts st (.file fname (l0 :: rest) :: l) =
      walkEntries recur relParts st l := by
  apply walkEntries_cons_skip
  rw [walkEntry, processFile, if_pos hm]
  rw [if_neg (by rw [hs]; exact Bool.false_ne_true), if_pos hfn, storeItem, hfail]

theorem skip_cls_file (recur : Bool) (relParts : List Str) (st : WSt)
    (l : List FSEntry) (fname l0 : Str) (rest : List Str)
    (hm : psuffix fname = str ".m")
    (hs : startsW (str "%") (rstripL l0) = false)
    (hfn : containsSub (str "function") (rstripL l0) = false)
    (hcl : containsSub (str "classdef") (rstripL l0) = true)
    (hfail : itemOfContents .cls (pstem fname) (getLines rest) = none) :
    walkEntries recur relParts st (.file fname (l0 :: rest) :: l) =
      walkEntries recur relParts st l := by
  apply walkEntries_cons_skip
  rw [walkEntry, processFile, if_pos hm]
  rw [if_neg (by rw [hs]; exact Bool.false_ne_true),
    if_neg (by rw [hfn]; exact Bool.false_ne_true), if_pos hcl, storeItem, hfail]

/-! ## Claims -/

/-- Claim C1 (code bug): the claim says rendering is idempotent and a pure
read — `gen` must leave `contents` unchanged and a second `gen` must emit
the same text.  In the code `contents = self.contents` aliases the stored
list and the resolved "See also" line is appended to it, so for any item
with a non-empty `see_also` the first `gen` mutates the item and the second
`gen` emits one more "See also" line.  Evaluated here at a concrete item
with `see_also = [bar]`; for an item with empty `see_also` (here `bar`
itself) `gen` is indeed read-only and idempotent. -/
theorem C1_gen_mutates_on_see_also :
    (genItem sampleLeaf fooItem).item.contents ≠ fooItem.contents ∧
    (genItem sampleLeaf (genItem sampleLeaf fooItem).item).out ≠
      (genItem sampleLeaf fooItem).out ∧
    (genItem sampleLeaf barItem).item = barItem ∧
    (genItem sampleLeaf (genItem sampleLeaf barItem).item).out =
      (genItem sampleLeaf barItem).out := by
  exact ⟨by decide, by decide, by decide, by decide⟩

/-- Claim C2 counterexample: the claim says a private-exclusion refusal of
a script-classified file aborts the walk of the remaining entries of the
directory.  It does not: in `privateScriptTree` the script `ascript.m` is
refused (its construction fails), yet the sibling `func1.m` is still
processed and ends up in the package's function list. -/
theorem C2_counterexample :
    itemOfContents .script (str "ascript")
      ((rstripL (str "%this is private stuff")).drop 1 ::
        getLines ([] : List Str)) = none ∧
    (walkDir true [str "pkg"] (str "pkg") privateScriptTree ⟨[], []⟩).map
      (fun r => r.1.functions.map Item.name) = some [str "func1"] := by
  exact ⟨by decide, by decide⟩

/-- Claim C2 (amended): a construction failure of a script-classified file
skips only that file — the walk of the remaining sibling entries continues
— exactly as a construction failure of a function- or class-classified
file does. -/
theorem C2_failed_construction_skips_file (recur : Bool) (relParts : List Str)
    (st : WSt) (l : List FSEntry) (fname l0 : Str) (rest : List Str)
    (hm : psuffix fname = str ".m") :
    (startsW (str "%") (rstripL l0) = true →
      itemOfContents .script (pstem fname)
        ((rstripL l0).drop 1 :: getLines rest) = none →
      walkEntries recur relParts st (.file fname (l0 :: rest) :: l) =
        walkEntries recur relParts st l) ∧
    (startsW (str "%") (rstripL l0) = false →
      containsSub (str "function") (rstripL l0) = true →
      itemOfContents .func (pstem fname) (getLines rest) = none →
      walkEntries recur relParts st (.file fname (l0 :: rest) :: l) =
        walkEntries recur relParts st l) ∧
    (startsW (str "%") (rstripL l0) = false →
      containsSub (str "function") (rstripL l0) = false →
      containsSub (str "classdef") (rstripL l0) = true →
      itemOfContents .cls (pstem fname) (getLines rest) = none →
      walkEntries recur relParts st (.file fname (l0 :: rest) :: l) =
        walkEntries recur relParts st l) :=
  ⟨fun hs hfail => skip_script_file recur relParts st l fname l0 rest hm hs hfail,
   fun hs hfn hfail => skip_func_file recur relParts st l fname l0 rest hm hs hfn hfail,
   fun hs hfn hcl hfail =>
     skip_cls_file recur relParts st l fname l0 rest hm hs hfn hcl hfail⟩

/-- Witness for C2: concrete instances of all three skip branches. -/
theorem C2_failed_construction_skips_file_witness :
    walkEntries true [] ⟨⟨[], []⟩, [], [], [], []⟩
      [.file (str "ascript.m") [str "%this is private stuff"]] =
      walkEntries true [] ⟨⟨[], []⟩, [], [], [], []⟩ [] ∧
    walkEntries true [] ⟨⟨[], []⟩, [], [], [], []⟩
      [.file (str "bad.m") [str "function y = bad(x)", str "% private helper"]] =
      walkEntries true [] ⟨⟨[], []⟩, [], [], [], []⟩ [] ∧
    walkEntries true [] ⟨⟨[], []⟩, [], [], [], []⟩
      [.file (str "badc.m") [str "classdef badc", str "% private helper"]] =
      walkEntries true [] ⟨⟨[], []⟩, [], [], [], []⟩ [] :=
  ⟨(C2_failed_construction_skips_file true [] ⟨⟨[], []⟩, [], [], [], []⟩ []
      (str "ascript.m") (str "%this is private stuff") [] (by decide)).1
      (by decide) (by decide),
   (C2_failed_construction_skips_file true [] ⟨⟨[], []⟩, [], [], [], []⟩ []
      (str "bad.m") (str "function y = bad(x)") [str "% private helper"]
      (by decide)).2.1 (by decide) (by decide) (by decide),
   (C2_failed_construction_skips_file true [] ⟨⟨[], []⟩, [], [], [], []⟩ []
      (str "badc.m") (str "classdef badc") [str "% private helper"]
      (by decide)).2.2 (by decide) (by decide) (by decide) (by decide)⟩

/-- Claim C3 counterexample: the claim says construction fails when the
header is missing, and only when the first line contains the word
"private".  Both directions fail: an empty content sequence (missing
header) succeeds, and a first line containing "Privateer" — where
"private" occurs only as a substring, not as a word token — is refused. -/
theorem C3_counterexample :
    (itemOfContents .func (str "foo") []).isSome = true ∧
    itemOfContents .func (str "tools") [str "Privateer tools"] = none ∧
    str "private" ∉ wordsL (lowerS (str "Privateer tools")) := by
  exact ⟨by decide, by decide, by decide⟩

/-- Claim C3 (amended): construction of an item from a non-empty content
sequence fails iff the first line contains "private" case-insensitively as
a substring; an empty content sequence yields an item with all fields
empty; and a construction failure makes the walk skip the file, not abort
it. -/
theorem C3_construction_criterion (kind : MKind) (nm first : Str)
    (rest : List Str) :
    (itemOfContents kind nm (first :: rest) = none ↔
      containsSub (str "private") (lowerS first) = true) ∧
    itemOfContents kind nm [] = some ⟨nm, [], [], [], [], kind⟩ ∧
    (∀ (recur : Bool) (relParts : List Str) (st : WSt) (l : List FSEntry)
      (fname l0 : Str) (frest : List Str),
      psuffix fname = str ".m" →
      startsW (str "%") (rstripL l0) = false →
      containsSub (str "function") (rstripL l0) = true →
      itemOfContents .func (pstem fname) (getLines frest) = none →
      walkEntries recur relParts st (.file fname (l0 :: frest) :: l) =
        walkEntries recur relParts st l) := by
  refine ⟨?_, rfl, fun recur relParts st l fname l0 frest hm hs hfn hfail =>
    skip_func_file recur relParts st l fname l0 frest hm hs hfn hfail⟩
  rw [itemOfContents]
  by_cases hp : containsSub (str "private") (lowerS first) = true
  · simp [hp]
  · simp [hp]

/-- Witness for C3: the empty-header item and a concrete skipped file. -/
theorem C3_construction_criterion_witness :
    itemOfContents .func (str "x") [] =
      some ⟨str "x", [], [], [], [], .func⟩ ∧
    walkEntries true [] ⟨⟨[], []⟩, [], [], [], []⟩
      [.file (str "bad.m") [str "function y = bad(x)", str "% private helper"]] =
      walkEntries true [] ⟨⟨[], []⟩, [], [], [], []⟩ [] :=
  ⟨(C3_construction_criterion .func (str "x") [] []).2.1,
   (C3_construction_criterion .func (str "x") [] []).2.2 true []
     ⟨⟨[], []⟩, [], [], [], []⟩ [] (str "bad.m") (str "function y = bad(x)")
     [str "% private helper"] (by decide) (by decide) (by decide) (by decide)⟩

/-- Claim C4 counterexample: the claim says the description is the first
non-empty content line with every occurrence of the upper-cased name
removed, and that it never contains the upper-cased name.  Both parts
fail: for name `ab` and first line `AABB` the single left-to-right
replacement pass leaves `AB` (removing the middle `AB` recombines a new
occurrence), and for a first line that is empty the description is empty
rather than taken from the next non-empty line. -/
theorem C4_counterexample :
    (itemOfContents .func (str "ab") [str "AABB"]).map Item.descr =
      some (str "AB") ∧
    containsSub (upperS (str "ab")) (str "AB") = true ∧
    (itemOfContents .func (str "x") [str "", str "hi"]).map Item.descr =
      some [] := by
  exact ⟨by decide, by decide, by decide⟩

/-- Claim C4 (amended): the stored description is the first content line
(whether or not it is empty) with the occurrences of the item's
upper-cased name removed by one left-to-right non-overlapping replacement
pass, then trimmed; the result can still contain the upper-cased name when
a removal recombines one. -/
theorem C4_descr_formula (kind : MKind) (nm first : Str) (rest : List Str)
    (it : Item) (h : itemOfContents kind nm (first :: rest) = some it) :
    it.descr = stripL (replaceAll (upperS nm) [] first) :=
  (itemOfContents_fields kind nm first rest it h).2.1

/-- Witness for C4 at a concrete header. -/
theorem C4_descr_formula_witness :
    c4item.descr =
      stripL (replaceAll (upperS (str "foo")) [] (str "  FOO does things  ")) :=
  C4_descr_formula .func (str "foo") (str "  FOO does things  ") [] c4item rfl

/-- Claim C5 (confirmed): the body stored by `scan` is exactly the
non-"See also" lines each independently emphasized (every whole-word match
of the self-reference pattern replaced by the bolded, case-folded text
with the canonical name restored — `emphLine`), the stored
`argument_signature` is the case-folded first argument capture across all
body lines in order, and a later match never overwrites a non-empty
signature. -/
theorem C5_emphasis_and_signature (kind : MKind) (nm first : Str)
    (rest : List Str) (it : Item)
    (h : itemOfContents kind nm (first :: rest) = some it) :
    it.contents = it.descr :: bodySpec nm rest ∧
    it.arguments = firstSigSpec nm rest ∧
    (∀ args g : Str, args ≠ [] → argStep args g = args) := by
  obtain ⟨-, -, hc, ha, -, -⟩ := itemOfContents_fields kind nm first rest it h
  refine ⟨hc, ?_, fun args g hne => argStep_keep args g hne⟩
  rw [ha, foldl_argStep_first]
  rfl

/-- Witness for C5 at a concrete item with an argument capture. -/
theorem C5_emphasis_and_signature_witness :
    c5item.contents =
      c5item.descr :: bodySpec (str "foo") [str "a = Foo(X) and foo"] ∧
    c5item.arguments = firstSigSpec (str "foo") [str "a = Foo(X) and foo"] ∧
    argStep (str "(q)") (str "(z)") = str "(q)" :=
  have t := C5_emphasis_and_signature .func (str "foo") (str "FOO t")
    [str "a = Foo(X) and foo"] c5item rfl
  ⟨t.1, t.2.1, t.2.2 (str "(q)") (str "(z)") (by decide)⟩

/-- Claim C6 (confirmed): every body line containing the literal "See
also" is excluded from the stored body; the stored `see_also` is the
word-token list of the text after the marker plus one extra character of
the last such line, case-folded (each such line overwrites the previous
token set). -/
theorem C6_see_also_extraction (kind : MKind) (nm first : Str)
    (rest : List Str) (it : Item)
    (h : itemOfContents kind nm (first :: rest) = some it) :
    it.see_also = seeAlsoSpec rest ∧
    it.contents = it.descr :: (rest.filter notSeeAlso).map (emphLine nm) := by
  obtain ⟨-, -, hc, -, hsa, -⟩ := itemOfContents_fields kind nm first rest it h
  exact ⟨hsa, hc⟩

/-- Witness for C6 at an item with two "See also" lines (last wins). -/
theorem C6_see_also_extraction_witness :
    c6item.see_also = seeAlsoSpec
      [str "   See also alpha, beta", str "body foo", str "   See also GAMMA"] ∧
    c6item.contents = c6item.descr ::
      ([str "   See also alpha, beta", str "body foo",
        str "   See also GAMMA"].filter notSeeAlso).map (emphLine (str "foo")) ∧
    c6item.see_also = [str "gamma"] :=
  have t := C6_see_also_extraction .func (str "foo") (str "FOO t")
    [str "   See also alpha, beta", str "body foo", str "   See also GAMMA"]
    c6item rfl
  ⟨t.1, t.2, by decide⟩

/-- Claim C7 (confirmed): resolving a see-also name never raises — the
lookup result is inspected: a present name renders with the target's own
role and canonical-case name with no diagnostic, an absent name renders as
a function-role reference with the unresolved name verbatim and emits
exactly the one diagnostic line "Undefined name in <source-item>: <name>";
in all cases at most one diagnostic line is produced. -/
theorem C7_target_resolution (leaf : Registry Item) (selfName nm : Str) :
    (∀ it, rlookup leaf nm = some it →
      targetF leaf selfName nm = (rstRole it.kind.role it.name, [])) ∧
    (rlookup leaf nm = none →
      targetF leaf selfName nm =
        (rstRole (str "func") nm, [undefMsg selfName nm])) ∧
    (targetF leaf selfName nm).2.length ≤ 1 := by
  refine ⟨fun it h => ?_, fun h => ?_, ?_⟩
  · rw [targetF, h]
  · rw [targetF, h]
  · rw [targetF]
    cases rlookup leaf nm with
    | none => exact Nat.le_refl 1
    | some it => exact Nat.zero_le 1

/-- Witness for C7: a resolved and an unresolved reference. -/
theorem C7_target_resolution_witness :
    targetF sampleLeaf (str "foo") (str "bar") =
      (rstRole barItem.kind.role barItem.name, []) ∧
    targetF sampleLeaf (str "foo") (str "baz") =
      (rstRole (str "func") (str "baz"), [undefMsg (str "foo") (str "baz")]) :=
  ⟨(C7_target_resolution sampleLeaf (str "foo") (str "bar")).1 barItem (by decide),
   (C7_target_resolution sampleLeaf (str "foo") (str "baz")).2.1 (by decide)⟩

/-- Claim C8 counterexample: the claim says the registry maps the
lower-cased name of every constructed item to that item.  Script items are
constructed but never entered: in `scriptTree` the script `myscript.m` is
successfully constructed, yet after the walk the registry has no binding
for "myscript". -/
theorem C8_counterexample :
    (itemOfContents .script (str "myscript")
      ((rstripL (str "%MYSCRIPT nice script")).drop 1 ::
        getLines [str "% body"])).isSome = true ∧
    (walkDir true [str "pkg"] (str "pkg") scriptTree ⟨[], []⟩).map
      (fun r => (rlookup r.2.leaf (str "myscript")).isSome) = some false := by
  exact ⟨by decide, by decide⟩

/-- Claim C8 (amended): after a walk starting from a well-formed registry,
the leaf registry binds the lower-cased name of every function- or
class-classified item constructed anywhere in the tree (script items are
never entered), the binding holds an item with that same lower-cased name
(the most recently stored one), and a later insertion with a colliding key
silently replaces the earlier binding for lookups. -/
theorem C8_registry_coverage (relParts : List Str) (dirName : Str)
    (entries : List FSEntry) (regs : Regs) (pkg : Pkg) (regs' : Regs)
    (hwf : leafWF regs.leaf)
    (h : walkDir true relParts dirName entries regs = some (pkg, regs')) :
    (∀ it ∈ allItems pkg, boundIn regs'.leaf it ∧
      ∀ it', rlookup regs'.leaf (lowerS it.name) = some it' →
        lowerS it'.name = lowerS it.name) ∧
    (∀ (r : Registry Item) (k : Str) (v : Item),
      rlookup (rinsert r k v) k = some v) := by
  obtain ⟨hle, hwfp, hsub, hbound⟩ :=
    walkDir_inv true relParts dirName entries regs pkg regs' h
  refine ⟨fun it hit => ⟨hbound it hit, fun it' hfind => ?_⟩,
    fun r k v => rlookup_rinsert r k v⟩
  have hmem := rlookup_mem _ _ _ hfind
  exact (hwfp hwf (lowerS it.name, it') hmem).symm

/-- Witness for C8: the item of `f.m` is bound after the walk of `c8tree`,
and insertion shadows for lookup. -/
theorem C8_registry_coverage_witness :
    boundIn c8res.2.leaf c8fItem ∧
    rlookup (rinsert ([] : Registry Item) (str "k") c8fItem) (str "k") =
      some c8fItem :=
  have t := C8_registry_coverage [str "pkg"] (str "pkg") c8tree ⟨[], []⟩
    c8res.1 c8res.2 (fun p hp => absurd hp (List.not_mem_nil p)) rfl
  ⟨(t.1 c8fItem (by decide)).1, t.2 [] (str "k") c8fItem⟩

/-- Claim C9 counterexample: the claim says a subdirectory whose name ends
in `@` is never traversed.  The code tests the `pathlib` stem, not the
name: the directory `x.y@` (stem `x`, suffix `.y@`) has a name ending in
`@` yet is traversed, producing a subpackage of size 1. -/
theorem C9_counterexample :
    (str "x.y@").getLast? = some '@' ∧
    (walkDir true [str "root"] (str "root") c9tree ⟨[], []⟩).map
      (fun r => r.1.subpackages.map Pkg.sz) = some [1] := by
  exact ⟨by decide, by decide⟩

/-- Claim C9 (amended): a subdirectory whose pathlib stem is exactly
"private" or ends in `@` is never traversed (the walk state is returned
unchanged), and every package appearing in any `subpackages` list of a
walk result has a nonzero count of subpackages, functions and classes. -/
theorem C9_exclusion_and_pruning (relParts : List Str) (dirName : Str)
    (entries : List FSEntry) (regs : Regs) (pkg : Pkg) (regs' : Regs) :
    (∀ (recur : Bool) (rel : List Str) (st : WSt) (nm : Str)
      (es : List FSEntry), excludedStem (pstem nm) = true →
      walkEntry recur rel st (.dir nm es) = some st) ∧
    (walkDir true relParts dirName entries regs = some (pkg, regs') →
      ∀ p ∈ allSubs pkg, 0 < p.sz) := by
  constructor
  · intro recur rel st nm es hex
    cases recur with
    | false => rw [walkEntry]; simp
    | true => rw [walkEntry]; simp [hex]
  · intro h p hp
    obtain ⟨-, -, hsub, -⟩ :=
      walkDir_inv true relParts dirName entries regs pkg regs' h
    cases pkg with
    | mk pid pnm pd subs fns cls =>
      rw [allSubs] at hp
      rw [Pkg.subpackages] at hsub
      rcases List.mem_append.mp hp with hp | hp
      · exact (hsub p hp).1
      · obtain ⟨q, hq, hpq⟩ := (mem_allSubsList p subs).mp hp
        exact (hsub q hq).2 p hpq

/-- Witness for C9: a `private` directory is skipped, and the one
subpackage produced by the walk of `c9tree` is non-empty. -/
theorem C9_exclusion_and_pruning_witness :
    walkEntry true [] ⟨⟨[], []⟩, [], [], [], []⟩ (.dir (str "private") []) =
      some ⟨⟨[], []⟩, [], [], [], []⟩ ∧
    0 < c9sub.sz :=
  have t := C9_exclusion_and_pruning [str "root"] (str "root") c9tree ⟨[], []⟩
    c9res.1 c9res.2
  ⟨t.1 true [] ⟨⟨[], []⟩, [], [], [], []⟩ (str "private") [] (by decide),
   t.2 rfl c9sub (by
    rw [show allSubs c9res.1 = [c9sub] from rfl]
    exact List.mem_cons_self c9sub [])⟩

/-- Claim C10 (confirmed): a script-classified file that is not the index
file `Contents.m` contributes nothing — the walk state (package collections
and both registries) is returned unchanged, so its item is neither stored
nor rendered; a successfully constructed index-file item changes exactly
the containing package's description. -/
theorem C10_script_contributes_nothing (st : WSt) (fname l0 : Str)
    (rest : List Str) (hm : psuffix fname = str ".m")
    (hs : startsW (str "%") (rstripL l0) = true) :
    (fname ≠ contentsFileName → processFile st fname (l0 :: rest) = some st) ∧
    (∀ it, fname = contentsFileName →
      itemOfContents .script (pstem fname)
        ((rstripL l0).drop 1 :: getLines rest) = some it →
      processFile st fname (l0 :: rest) = some { st with descr := it.descr }) := by
  constructor
  · intro hne
    rw [processFile, if_pos hm, if_pos hs, handleScriptFile]
    cases itemOfContents .script (pstem fname)
        ((rstripL l0).drop 1 :: getLines rest) with
    | none => rfl
    | some it => simp [hne]
  · intro it hc hio
    rw [processFile, if_pos hm, if_pos hs, handleScriptFile, hio]
    simp [hc]

/-- Witness for C10: a plain script leaves the state unchanged; a
`Contents.m` header sets the description. -/
theorem C10_script_contributes_nothing_witness :
    processFile ⟨⟨[], []⟩, [], [], [], []⟩ (str "other.m")
      [str "%OTHER script"] = some ⟨⟨[], []⟩, [], [], [], []⟩ ∧
    processFile ⟨⟨[], []⟩, [], [], [], []⟩ (str "Contents.m")
      [str "%PKG utilities"] =
      some ⟨⟨[], []⟩, [], [], [], c10item.descr⟩ :=
  ⟨(C10_script_contributes_nothing ⟨⟨[], []⟩, [], [], [], []⟩ (str "other.m")
      (str "%OTHER script") [] (by decide) (by decide)).1 (by decide),
   (C10_script_contributes_nothing ⟨⟨[], []⟩, [], [], [], []⟩ (str "Contents.m")
      (str "%PKG utilities") [] (by decide) (by decide)).2 c10item rfl rfl⟩

end Docmat
